import Mathlib

/-!
# Verification of the go-polyline codec

Shallow embedding of `polyline.go` (Google Maps Encoding Polyline codec).

Modelling choices:
* Go byte buffers are `List ℕ` (each entry a byte value).
* Go `uint` / `int` are 64-bit machine integers; they are modelled as `ℕ` / `ℤ`
  with explicit reduction `% 2 ^ 64` at every operation where Go wraps
  (additions in `DecodeUint`, the shift `i << 1` and the increment `u + 1`
  in the zigzag mapping).
* Go `float64` coordinate values are modelled as exact rationals `ℚ`.
* Go loops whose termination is not structural (`DecodeCoords`,
  `DecodeFlatCoords`) are modelled with explicit fuel; `none` marks fuel
  exhaustion, i.e. a loop that made no progress.  The public entry points
  supply `buf.length` fuel, which suffices whenever `Dim ≥ 1`.
* Go error returns `(zero, nil, err)` are modelled with `Except`: an error
  carries no partial output, exactly as the Go functions return `nil` results
  alongside a non-nil error.
-/

namespace Polyline

/-- The three error values of the package
(`errInvalidByte`, `errUnterminatedSequence`, `errDimensionalMismatch`). -/
inductive PErr where
  | invalidByte
  | unterminatedSequence
  | dimensionalMismatch
deriving DecidableEq

instance {ε α : Type} [DecidableEq ε] [DecidableEq α] : DecidableEq (Except ε α) := by
  intro a b
  cases a <;> cases b
  case error.error e f => exact if h : e = f then .isTrue (by rw [h]) else .isFalse (by simpa)
  case error.ok e x => exact .isFalse (by simp)
  case ok.error x e => exact .isFalse (by simp)
  case ok.ok x y => exact if h : x = y then .isTrue (by rw [h]) else .isFalse (by simpa)

/-- `round` from the source: round to nearest, ties away from zero.
(`Rat.floor` is used so that the definition evaluates by kernel reduction;
it agrees with `Int.floor`, see `round_eq_floor`.) -/
def round (x : ℚ) : ℤ := if x < 0 then -((-x + 1/2).floor) else (x + 1/2).floor

/-- A `Codec` represents an encoder (`Dim` dimensionality, `Scale` scale). -/
structure Codec where
  Dim : ℕ
  Scale : ℚ
deriving DecidableEq

/-- `defaultCodec = Codec{Dim: 2, Scale: 1e5}`. -/
def defaultCodec : Codec := { Dim := 2, Scale := 100000 }

/-- The loop of `DecodeUint`: byte-wise accumulation with 64-bit wrap-around.
A byte in `[63,95)` terminates, a byte in `[95,127)` continues with the shift
raised by 5, anything else is `invalidByte`; running out of input is
`unterminatedSequence`. -/
def decodeUintLoop : List ℕ → ℕ → ℕ → Except PErr (ℕ × List ℕ)
  | [], _, _ => .error .unterminatedSequence
  | b :: rest, u, shift =>
    if 63 ≤ b ∧ b < 95 then .ok ((u + (b - 63) * 2 ^ shift) % 2 ^ 64, rest)
    else if 95 ≤ b ∧ b < 127 then
      decodeUintLoop rest ((u + (b - 95) * 2 ^ shift) % 2 ^ 64) (shift + 5)
    else .error .invalidByte

/-- `DecodeUint` decodes a single unsigned integer from `buf`, returning the
decoded value and the remaining unconsumed bytes. -/
def DecodeUint (buf : List ℕ) : Except PErr (ℕ × List ℕ) :=
  decodeUintLoop buf 0 0

/-- The loop of `EncodeUint`, with fuel (the initial value `u` itself is
always enough fuel, since `u` shrinks by a factor 32 each step):
while `u ≥ 32` emit `(u & 31) + 95` and shift `u` right by 5;
finally emit `u + 63`. -/
def encodeUintAux : ℕ → ℕ → List ℕ
  | 0, u => [u + 63]
  | fuel + 1, u => if 32 ≤ u then (u % 32 + 95) :: encodeUintAux fuel (u / 32) else [u + 63]

/-- `EncodeUint` appends the encoding of a single unsigned integer `u` to
`buf` and returns the new `buf`. -/
def EncodeUint (buf : List ℕ) (u : ℕ) : List ℕ :=
  buf ++ encodeUintAux u u

/-- 64-bit signed wrap-around: the value of an integer reduced into
`[-2^63, 2^63)`, as Go's `int` arithmetic produces. -/
def wrap64 (x : ℤ) : ℤ := (x + 2 ^ 63) % 2 ^ 64 - 2 ^ 63

/-- Go's conversion `uint(x)` of a 64-bit signed value: the representative of
`x` modulo `2^64` in `[0, 2^64)`. -/
def toUint64 (x : ℤ) : ℕ := (x % 2 ^ 64).toNat

/-- `EncodeInt` appends the encoding of a single signed integer `i` to `buf`:
zigzag-map `i` (`uint(^(i << 1))` for negative `i`, `uint(i << 1)` otherwise,
`^x = -x - 1` being 64-bit bitwise complement) and delegate to `EncodeUint`. -/
def EncodeInt (buf : List ℕ) (i : ℤ) : List ℕ :=
  if i < 0 then EncodeUint buf (toUint64 (-(wrap64 (2 * i)) - 1))
  else EncodeUint buf (toUint64 (wrap64 (2 * i)))

/-- `DecodeInt` decodes a single signed integer from `buf`: decode an
unsigned value and reverse the zigzag mapping (`int(u >> 1)` when even,
`-int((u + 1) >> 1)` when odd, `u + 1` wrapping at `2^64`). -/
def DecodeInt (buf : List ℕ) : Except PErr (ℤ × List ℕ) :=
  match DecodeUint buf with
  | .error e => .error e
  | .ok (u, rest) =>
    if u % 2 = 0 then .ok ((u / 2 : ℕ), rest)
    else .ok (-(((u + 1) % 2 ^ 64 / 2 : ℕ) : ℤ), rest)

/-- The loop of `Codec.DecodeCoord`: decode `d` consecutive signed integers,
dividing each by the scale. -/
def decodeCoordAux (c : Codec) : ℕ → List ℕ → Except PErr (List ℚ × List ℕ)
  | 0, buf => .ok ([], buf)
  | d + 1, buf =>
    match DecodeInt buf with
    | .error e => .error e
    | .ok (j, buf1) =>
      match decodeCoordAux c d buf1 with
      | .error e => .error e
      | .ok (coord, buf2) => .ok ((j : ℚ) / c.Scale :: coord, buf2)

/-- `Codec.DecodeCoord` decodes a single coordinate (`Dim` signed integers,
each divided by `Scale`) from `buf`. -/
def Codec.DecodeCoord (c : Codec) (buf : List ℕ) : Except PErr (List ℚ × List ℕ) :=
  decodeCoordAux c c.Dim buf

/-- The loop of `Codec.DecodeCoords` with fuel: while bytes remain, decode a
coordinate and add the previously decoded coordinate's (already scaled)
values component-wise.  `prev` is the last decoded coordinate, `none` marks
fuel exhaustion (the Go loop makes no progress when `Dim = 0`). -/
def decodeCoordsLoop (c : Codec) : ℕ → List ℚ → List ℕ → Option (Except PErr (List (List ℚ)))
  | _, _, [] => some (.ok [])
  | 0, _, _ :: _ => none
  | fuel + 1, prev, b :: bs =>
    match c.DecodeCoord (b :: bs) with
    | .error e => some (.error e)
    | .ok (coord, buf1) =>
      match decodeCoordsLoop c fuel (List.zipWith (fun x y => x + y) coord prev) buf1 with
      | none => none
      | some (.error e) => some (.error e)
      | some (.ok rest) => some (.ok (List.zipWith (fun x y => x + y) coord prev :: rest))

/-- `Codec.DecodeCoords` decodes an array of coordinates from `buf`: a
mandatory absolute first coordinate, then delta-decoded coordinates while
bytes remain.  On success the remainder is always empty. -/
def Codec.DecodeCoords (c : Codec) (buf : List ℕ) :
    Option (Except PErr (List (List ℚ) × List ℕ)) :=
  match c.DecodeCoord buf with
  | .error e => some (.error e)
  | .ok (coord, buf1) =>
    match decodeCoordsLoop c buf1.length coord buf1 with
    | none => none
    | some (.error e) => some (.error e)
    | some (.ok rest) => some (.ok (coord :: rest, []))

/-- One group of `Codec.DecodeFlatCoords`: walk the integer accumulator
`last` position by position, decoding one signed integer per position,
adding it into the accumulator and emitting the scaled value. -/
def flatGroup (c : Codec) : List ℤ → List ℕ → Except PErr (List ℤ × List ℚ × List ℕ)
  | [], buf => .ok ([], [], buf)
  | l :: ls, buf =>
    match DecodeInt buf with
    | .error e => .error e
    | .ok (k, buf1) =>
      match flatGroup c ls buf1 with
      | .error e => .error e
      | .ok (ls1, vals, buf2) => .ok ((l + k) :: ls1, ((l + k : ℤ) : ℚ) / c.Scale :: vals, buf2)

/-- The loop of `Codec.DecodeFlatCoords` with fuel: while bytes remain,
decode one group of `Dim` integers into the running accumulator. -/
def decodeFlatLoop (c : Codec) : ℕ → List ℤ → List ℕ → Option (Except PErr (List ℚ))
  | _, _, [] => some (.ok [])
  | 0, _, _ :: _ => none
  | fuel + 1, last, b :: bs =>
    match flatGroup c last (b :: bs) with
    | .error e => some (.error e)
    | .ok (last1, vals, buf1) =>
      match decodeFlatLoop c fuel last1 buf1 with
      | none => none
      | some (.error e) => some (.error e)
      | some (.ok vals1) => some (.ok (vals ++ vals1))

/-- `Codec.DecodeFlatCoords` decodes coordinates from `buf`, appending the
flat (dimension-major) values to `fcs`; fails with `dimensionalMismatch`
when `fcs.length` is not a multiple of `Dim`. -/
def Codec.DecodeFlatCoords (c : Codec) (fcs : List ℚ) (buf : List ℕ) :
    Option (Except PErr (List ℚ × List ℕ)) :=
  if fcs.length % c.Dim ≠ 0 then some (.error .dimensionalMismatch)
  else
    match decodeFlatLoop c buf.length (List.replicate c.Dim 0) buf with
    | none => none
    | some (.error e) => some (.error e)
    | some (.ok vals) => some (.ok (fcs ++ vals, []))

/-- One coordinate of `Codec.EncodeCoords`: walk the coordinate's components
in step with the accumulator `last` (Go indexes `last[i]` by the component
index, so a component beyond `last`'s length is an out-of-bounds access,
modelled by `none`), encoding `round(Scale*x) - last[i]` and storing the
rounded value back. -/
def encodeCoordDelta (c : Codec) : List ℚ → List ℤ → List ℕ → Option (List ℤ × List ℕ)
  | [], last, buf => some (last, buf)
  | _ :: _, [], _ => none
  | x :: xs, l :: ls, buf =>
    match encodeCoordDelta c xs ls (EncodeInt buf (round (c.Scale * x) - l)) with
    | none => none
    | some (ls1, buf1) => some (round (c.Scale * x) :: ls1, buf1)

/-- The loop of `Codec.EncodeCoords` over the coordinate list. -/
def encodeCoordsLoop (c : Codec) : List (List ℚ) → List ℤ → List ℕ → Option (List ℕ)
  | [], _, buf => some buf
  | coord :: rest, last, buf =>
    match encodeCoordDelta c coord last buf with
    | none => none
    | some (last1, buf1) => encodeCoordsLoop c rest last1 buf1

/-- `Codec.EncodeCoords` appends the delta encoding of `coords` to `buf`,
starting from a zero accumulator of length `Dim`.  `none` models the Go
panic on an out-of-bounds `last[i]` access. -/
def Codec.EncodeCoords (c : Codec) (buf : List ℕ) (coords : List (List ℚ)) : Option (List ℕ) :=
  encodeCoordsLoop c coords (List.replicate c.Dim 0) buf

/-- The loop of `Codec.EncodeFlatCoords`: position `i` runs over the flat
list, the accumulator entry `i % Dim` is read (`getD` is safe: the index is
always in range once the length check passed and `Dim ≥ 1`) and updated. -/
def encodeFlatLoop (c : Codec) : List ℚ → ℕ → List ℤ → List ℕ → List ℕ
  | [], _, _, buf => buf
  | x :: xs, i, last, buf =>
    encodeFlatLoop c xs (i + 1) (last.set (i % c.Dim) (round (c.Scale * x)))
      (EncodeInt buf (round (c.Scale * x) - last.getD (i % c.Dim) 0))

/-- `Codec.EncodeFlatCoords` encodes a flat coordinate list, failing with
`dimensionalMismatch` when its length is not a multiple of `Dim`. -/
def Codec.EncodeFlatCoords (c : Codec) (buf : List ℕ) (fcs : List ℚ) : Except PErr (List ℕ) :=
  if fcs.length % c.Dim ≠ 0 then .error .dimensionalMismatch
  else .ok (encodeFlatLoop c fcs 0 (List.replicate c.Dim 0) buf)

/-! ## Helper definitions used only to state and prove properties -/

/-- The value accumulated by `DecodeUint` from continuation bytes `pre`
and terminal byte `b`, starting at bit position `shift`:
`(byte - 95) << shift` per continuation byte, shift growing by 5, and
`(byte - 63) << shift` for the terminal byte. -/
def uintValueAux : List ℕ → ℕ → ℕ → ℕ
  | [], b, shift => (b - 63) * 2 ^ shift
  | p :: ps, b, shift => (p - 95) * 2 ^ shift + uintValueAux ps b (shift + 5)

/-- The value accumulated by `DecodeUint` from continuation bytes `pre` and
terminal byte `b`. -/
def uintValue (pre : List ℕ) (b : ℕ) : ℕ := uintValueAux pre b 0

/-- Concatenation of freshly encoded signed integers. -/
def encInts : List ℤ → List ℕ
  | [] => []
  | j :: js => EncodeInt [] j ++ encInts js

/-- Decode `d` consecutive signed integers (the integer core shared by
`Codec.DecodeCoord` and `flatGroup`). -/
def decodeInts : ℕ → List ℕ → Except PErr (List ℤ × List ℕ)
  | 0, buf => .ok ([], buf)
  | d + 1, buf =>
    match DecodeInt buf with
    | .error e => .error e
    | .ok (j, buf1) =>
      match decodeInts d buf1 with
      | .error e => .error e
      | .ok (js, buf2) => .ok (j :: js, buf2)

/-- The per-dimension delta sequence of a list of (scaled, rounded)
integer coordinates, relative to an initial accumulator `last`. -/
def deltas : List ℤ → List (List ℤ) → List (List ℤ)
  | _, [] => []
  | last, v :: vs => List.zipWith (fun a b => a - b) v last :: deltas v vs

/-- Each coordinate component scaled by `Scale` and rounded, as the encoder
computes it. -/
def scaled (c : Codec) (coords : List (List ℚ)) : List (List ℤ) :=
  coords.map (List.map fun x => round (c.Scale * x))

/-- The coordinates recovered by a decode of an encode: each component
becomes `round(Scale * x) / Scale`. -/
def roundTrip (c : Codec) (coords : List (List ℚ)) : List (List ℚ) :=
  coords.map (List.map fun x => ((round (c.Scale * x) : ℤ) : ℚ) / c.Scale)

/-- The byte string `EncodeCoords` produces on a well-formed coordinate
list: the flattened delta sequence, encoded integer by integer. -/
def encBytes (c : Codec) (coords : List (List ℚ)) : List ℕ :=
  encInts (deltas (List.replicate c.Dim 0) (scaled c coords)).flatten

/-! ## Basic lemmas -/

theorem round_eq_floor (x : ℚ) : round x = if x < 0 then -⌊-x + 1/2⌋ else ⌊x + 1/2⌋ := by
  unfold round
  rcases lt_or_le x 0 with h | h
  · rw [if_pos h, if_pos h, Rat.floor_def', Rat.floor_def]
  · rw [if_neg (not_lt.mpr h), if_neg (not_lt.mpr h), Rat.floor_def', Rat.floor_def]

/-- `round` is within 1/2 of its argument. -/
theorem abs_round_sub_le (x : ℚ) : |(round x : ℚ) - x| ≤ 1 / 2 := by
  rw [round_eq_floor]
  rcases lt_or_le x 0 with h | h
  · rw [if_pos h]
    have h1 : (⌊-x + 1/2⌋ : ℚ) ≤ -x + 1/2 := Int.floor_le _
    have h2 : -x + 1/2 < (⌊-x + 1/2⌋ : ℚ) + 1 := Int.lt_floor_add_one _
    rw [abs_le]
    push_cast
    constructor <;> linarith
  · rw [if_neg (not_lt.mpr h)]
    have h1 : (⌊x + 1/2⌋ : ℚ) ≤ x + 1/2 := Int.floor_le _
    have h2 : x + 1/2 < (⌊x + 1/2⌋ : ℚ) + 1 := Int.lt_floor_add_one _
    rw [abs_le]
    constructor <;> linarith

/-! ## Scalar codec lemmas -/

theorem encodeUintAux_ne_nil (fuel u : ℕ) : encodeUintAux fuel u ≠ [] := by
  cases fuel with
  | zero => simp [encodeUintAux]
  | succ fuel => unfold encodeUintAux; split <;> simp

theorem encodeInt_eq_append (buf : List ℕ) (i : ℤ) :
    EncodeInt buf i = buf ++ EncodeInt [] i := by
  unfold EncodeInt EncodeUint
  split <;> simp

theorem encodeInt_ne_nil (i : ℤ) : EncodeInt [] i ≠ [] := by
  unfold EncodeInt EncodeUint
  split <;> simpa using encodeUintAux_ne_nil _ _

theorem decodeUintLoop_nil (u shift : ℕ) :
    decodeUintLoop [] u shift = .error .unterminatedSequence := rfl

theorem decodeUintLoop_cons (b : ℕ) (rest : List ℕ) (u shift : ℕ) :
    decodeUintLoop (b :: rest) u shift =
      if 63 ≤ b ∧ b < 95 then .ok ((u + (b - 63) * 2 ^ shift) % 2 ^ 64, rest)
      else if 95 ≤ b ∧ b < 127 then
        decodeUintLoop rest ((u + (b - 95) * 2 ^ shift) % 2 ^ 64) (shift + 5)
      else .error .invalidByte := rfl

theorem decodeUintLoop_encodeUintAux :
    ∀ fuel u acc shift, u ≤ fuel → acc + u * 2 ^ shift < 2 ^ 64 →
      ∀ rest, decodeUintLoop (encodeUintAux fuel u ++ rest) acc shift =
        .ok (acc + u * 2 ^ shift, rest) := by
  intro fuel
  induction fuel with
  | zero =>
    intro u acc shift hu hb rest
    have hu0 : u = 0 := Nat.le_zero.mp hu
    subst hu0
    simp only [encodeUintAux, List.cons_append, List.nil_append, decodeUintLoop_cons]
    rw [if_pos (show 63 ≤ 0 + 63 ∧ 0 + 63 < 95 by omega)]
    have hv : (acc + (0 + 63 - 63) * 2 ^ shift) % 2 ^ 64 = acc + 0 * 2 ^ shift := by
      have h0 : (0 : ℕ) + 63 - 63 = 0 := rfl
      rw [h0]
      simp only [Nat.zero_mul, Nat.add_zero] at hb ⊢
      exact Nat.mod_eq_of_lt hb
    rw [hv]
  | succ fuel ih =>
    intro u acc shift hu hb rest
    unfold encodeUintAux
    by_cases h32 : 32 ≤ u
    · rw [if_pos h32]
      simp only [List.cons_append, decodeUintLoop_cons]
      rw [if_neg (by omega), if_pos (show 95 ≤ u % 32 + 95 ∧ u % 32 + 95 < 127 by
        have := Nat.mod_lt u (show 0 < 32 by norm_num)
        omega)]
      have hle : u % 32 * 2 ^ shift ≤ u * 2 ^ shift :=
        Nat.mul_le_mul_right _ (Nat.mod_le u 32)
      have hmod : (acc + (u % 32 + 95 - 95) * 2 ^ shift) % 2 ^ 64
          = acc + u % 32 * 2 ^ shift := by
        rw [show u % 32 + 95 - 95 = u % 32 from by omega]
        exact Nat.mod_eq_of_lt (by omega)
      rw [hmod]
      have hdivle : u / 32 ≤ fuel := by
        have : u / 32 < u := Nat.div_lt_self (by omega) (by norm_num)
        omega
      have hval : acc + u % 32 * 2 ^ shift + u / 32 * 2 ^ (shift + 5)
          = acc + u * 2 ^ shift := by
        have hsplit : u % 32 + 32 * (u / 32) = u := Nat.mod_add_div u 32
        have h5 : 2 ^ (shift + 5) = 2 ^ shift * 32 := by rw [pow_add]; norm_num
        rw [h5]
        calc acc + u % 32 * 2 ^ shift + u / 32 * (2 ^ shift * 32)
            = acc + (u % 32 + 32 * (u / 32)) * 2 ^ shift := by ring
          _ = acc + u * 2 ^ shift := by rw [hsplit]
      have hrec := ih (u / 32) (acc + u % 32 * 2 ^ shift) (shift + 5) hdivle
        (by omega) rest
      rw [hval] at hrec
      exact hrec
    · rw [if_neg h32]
      simp only [List.cons_append, decodeUintLoop_cons]
      rw [if_pos (show 63 ≤ u + 63 ∧ u + 63 < 95 by omega)]
      rw [show u + 63 - 63 = u from by omega]
      rw [Nat.mod_eq_of_lt (by omega), List.nil_append]

theorem decodeUint_encodeUint (u : ℕ) (hu : u < 2 ^ 64) (rest : List ℕ) :
    DecodeUint (EncodeUint [] u ++ rest) = .ok (u, rest) := by
  unfold DecodeUint EncodeUint
  simpa using decodeUintLoop_encodeUintAux u u 0 0 le_rfl (by simpa) rest

theorem decodeInt_of_decodeUint_ok (buf : List ℕ) (u : ℕ) (rest : List ℕ)
    (h : DecodeUint buf = .ok (u, rest)) :
    DecodeInt buf =
      if u % 2 = 0 then .ok ((u / 2 : ℕ), rest)
      else .ok (-(((u + 1) % 2 ^ 64 / 2 : ℕ) : ℤ), rest) := by
  unfold DecodeInt
  rw [h]

theorem decodeInt_of_decodeUint_error (buf : List ℕ) (e : PErr)
    (h : DecodeUint buf = .error e) : DecodeInt buf = .error e := by
  unfold DecodeInt
  rw [h]

theorem wrap64_emod (x : ℤ) : wrap64 x % 2 ^ 64 = x % 2 ^ 64 := by
  unfold wrap64
  simp only [show ((2 : ℤ) ^ 64) = 18446744073709551616 from by norm_num,
    show ((2 : ℤ) ^ 63) = 9223372036854775808 from by norm_num]
  omega

theorem toUint64_zig_nonneg (i : ℤ) (h0 : 0 ≤ i) (h : i < 2 ^ 63) :
    toUint64 (wrap64 (2 * i)) = (2 * i).toNat := by
  unfold toUint64
  rw [wrap64_emod]
  simp only [show ((2 : ℤ) ^ 64) = 18446744073709551616 from by norm_num] at *
  omega

theorem toUint64_zig_neg (i : ℤ) (h0 : i < 0) (h : -(2 ^ 63) ≤ i) :
    toUint64 (-(wrap64 (2 * i)) - 1) = (-(2 * i) - 1).toNat := by
  unfold toUint64 wrap64
  simp only [show ((2 : ℤ) ^ 64) = 18446744073709551616 from by norm_num,
    show ((2 : ℤ) ^ 63) = 9223372036854775808 from by norm_num] at *
  omega

theorem decodeInt_encodeInt (i : ℤ) (h1 : -(2 ^ 63) < i) (h2 : i < 2 ^ 63) (rest : List ℕ) :
    DecodeInt (EncodeInt [] i ++ rest) = .ok (i, rest) := by
  have hp63 : ((2 : ℤ) ^ 63) = 9223372036854775808 := by norm_num
  have hp64 : ((2 : ℕ) ^ 64) = 18446744073709551616 := by norm_num
  unfold EncodeInt
  by_cases hi : i < 0
  · rw [if_pos hi, toUint64_zig_neg i hi (le_of_lt h1)]
    have hu : (-(2 * i) - 1).toNat < 2 ^ 64 := by
      rw [hp64]; rw [hp63] at h1; omega
    rw [decodeInt_of_decodeUint_ok _ _ _ (decodeUint_encodeUint _ hu rest)]
    rw [if_neg (by rw [hp63] at h1; omega)]
    have hvl : -((((-(2 * i) - 1).toNat + 1) % 2 ^ 64 / 2 : ℕ) : ℤ) = i := by
      have h64 : ((-(2 * i) - 1).toNat + 1) % 2 ^ 64 = (-(2 * i) - 1).toNat + 1 :=
        Nat.mod_eq_of_lt (by rw [hp64]; rw [hp63] at h1; omega)
      rw [h64]
      omega
    rw [hvl]
  · rw [if_neg hi, toUint64_zig_nonneg i (not_lt.mp hi) h2]
    have hu : (2 * i).toNat < 2 ^ 64 := by
      rw [hp64]; rw [hp63] at h2; omega
    rw [decodeInt_of_decodeUint_ok _ _ _ (decodeUint_encodeUint _ hu rest)]
    rw [if_pos (by omega)]
    have hvl : (((2 * i).toNat / 2 : ℕ) : ℤ) = i := by omega
    rw [hvl]

theorem decodeUintLoop_unterminated :
    ∀ buf u shift, (∀ x ∈ buf, 95 ≤ x ∧ x < 127) →
      decodeUintLoop buf u shift = .error .unterminatedSequence := by
  intro buf
  induction buf with
  | nil => intro u shift _; rfl
  | cons b bs ih =>
    intro u shift hall
    obtain ⟨hb1, hb2⟩ := hall b (by simp)
    rw [decodeUintLoop_cons, if_neg (by omega), if_pos ⟨hb1, hb2⟩]
    exact ih _ _ fun x hx => hall x (by simp [hx])

theorem decodeUintLoop_invalid :
    ∀ pre b rest u shift, (∀ x ∈ pre, 95 ≤ x ∧ x < 127) → ¬(63 ≤ b ∧ b < 127) →
      decodeUintLoop (pre ++ b :: rest) u shift = .error .invalidByte := by
  intro pre
  induction pre with
  | nil =>
    intro b rest u shift _ hb
    simp only [List.nil_append]
    rw [decodeUintLoop_cons, if_neg (by omega), if_neg (by omega)]
  | cons p ps ih =>
    intro b rest u shift hall hb
    obtain ⟨hp1, hp2⟩ := hall p (by simp)
    simp only [List.cons_append]
    rw [decodeUintLoop_cons, if_neg (by omega), if_pos ⟨hp1, hp2⟩]
    exact ih b rest _ _ (fun x hx => hall x (by simp [hx])) hb

theorem decodeUintLoop_terminated :
    ∀ pre b rest u shift, (∀ x ∈ pre, 95 ≤ x ∧ x < 127) → 63 ≤ b → b < 95 →
      decodeUintLoop (pre ++ b :: rest) u shift =
        .ok ((u + uintValueAux pre b shift) % 2 ^ 64, rest) := by
  intro pre
  induction pre with
  | nil =>
    intro b rest u shift _ hb1 hb2
    simp only [List.nil_append]
    rw [decodeUintLoop_cons, if_pos ⟨hb1, hb2⟩]
    rfl
  | cons p ps ih =>
    intro b rest u shift hall hb1 hb2
    obtain ⟨hp1, hp2⟩ := hall p (by simp)
    simp only [List.cons_append]
    rw [decodeUintLoop_cons, if_neg (by omega), if_pos ⟨hp1, hp2⟩]
    rw [ih b rest _ _ (fun x hx => hall x (by simp [hx])) hb1 hb2]
    simp only [uintValueAux]
    rw [Nat.mod_add_mod]
    ring_nf

/-! ## Integer-list layer -/

theorem encInts_append (xs ys : List ℤ) :
    encInts (xs ++ ys) = encInts xs ++ encInts ys := by
  induction xs with
  | nil => simp [encInts]
  | cons x xs ih => simp [encInts, ih]

theorem decodeInts_succ_ok (d : ℕ) (buf : List ℕ) (j : ℤ) (buf1 : List ℕ)
    (h : DecodeInt buf = .ok (j, buf1)) :
    decodeInts (d + 1) buf =
      match decodeInts d buf1 with
      | .error e => .error e
      | .ok (js, buf2) => .ok (j :: js, buf2) := by
  simp only [decodeInts]
  rw [h]

theorem decodeInts_succ_error (d : ℕ) (buf : List ℕ) (e : PErr)
    (h : DecodeInt buf = .error e) : decodeInts (d + 1) buf = .error e := by
  simp only [decodeInts]
  rw [h]

theorem decodeInts_encInts :
    ∀ js : List ℤ, (∀ j ∈ js, -(2 ^ 63) < j ∧ j < 2 ^ 63) → ∀ rest,
      decodeInts js.length (encInts js ++ rest) = .ok (js, rest) := by
  intro js
  induction js with
  | nil => intro _ rest; simp [encInts, decodeInts]
  | cons j js ih =>
    intro hall rest
    obtain ⟨h1, h2⟩ := hall j (by simp)
    have hdec : DecodeInt (encInts (j :: js) ++ rest) = .ok (j, encInts js ++ rest) := by
      simpa [encInts, List.append_assoc] using
        decodeInt_encodeInt j h1 h2 (encInts js ++ rest)
    rw [show (j :: js).length = js.length + 1 from rfl,
      decodeInts_succ_ok js.length _ j (encInts js ++ rest) hdec,
      ih (fun x hx => hall x (by simp [hx])) rest]

theorem decodeInts_length :
    ∀ d buf js rest, decodeInts d buf = .ok (js, rest) → js.length = d := by
  intro d
  induction d with
  | zero =>
    intro buf js rest h
    simp only [decodeInts] at h
    simp only [Except.ok.injEq, Prod.mk.injEq] at h
    rw [← h.1]
    rfl
  | succ d ih =>
    intro buf js rest h
    cases hd : DecodeInt buf with
    | error e => rw [decodeInts_succ_error d buf e hd] at h; exact absurd h (by simp)
    | ok p =>
      obtain ⟨j, buf1⟩ := p
      rw [decodeInts_succ_ok d buf j buf1 hd] at h
      cases h2 : decodeInts d buf1 with
      | error e => rw [h2] at h; exact absurd h (by simp)
      | ok q =>
        obtain ⟨js1, buf2⟩ := q
        rw [h2] at h
        simp only [Except.ok.injEq, Prod.mk.injEq] at h
        rw [← h.1]
        simpa using ih buf1 js1 buf2 h2

theorem decodeCoordAux_eq (c : Codec) :
    ∀ d buf, decodeCoordAux c d buf =
      (decodeInts d buf).map fun p => (p.1.map fun j : ℤ => (j : ℚ) / c.Scale, p.2) := by
  intro d
  induction d with
  | zero => intro buf; simp [decodeCoordAux, decodeInts, Except.map]
  | succ d ih =>
    intro buf
    simp only [decodeCoordAux, decodeInts]
    cases h : DecodeInt buf with
    | error e => simp [Except.map]
    | ok p =>
      obtain ⟨j, buf1⟩ := p
      simp only
      rw [ih buf1]
      cases h2 : decodeInts d buf1 with
      | error e => simp [Except.map]
      | ok q =>
        obtain ⟨js, buf2⟩ := q
        simp [Except.map]

theorem flatGroup_eq (c : Codec) :
    ∀ last buf, flatGroup c last buf =
      (decodeInts last.length buf).map fun p =>
        (List.zipWith (fun l k => l + k) last p.1,
          (List.zipWith (fun l k => l + k) last p.1).map (fun z : ℤ => (z : ℚ) / c.Scale),
          p.2) := by
  intro last
  induction last with
  | nil => intro buf; simp [flatGroup, decodeInts, Except.map]
  | cons l ls ih =>
    intro buf
    simp only [flatGroup, List.length_cons, decodeInts]
    cases h : DecodeInt buf with
    | error e => simp [Except.map]
    | ok p =>
      obtain ⟨k, buf1⟩ := p
      simp only
      rw [ih buf1]
      cases h2 : decodeInts ls.length buf1 with
      | error e => simp [Except.map]
      | ok q =>
        obtain ⟨ks, buf2⟩ := q
        simp only [Except.map, List.zipWith_cons_cons, List.map_cons,
          Except.ok.injEq, Prod.mk.injEq]

/-! ## Consumption lemmas -/

theorem decodeUintLoop_consume :
    ∀ buf u shift v rest, decodeUintLoop buf u shift = .ok (v, rest) →
      rest.length < buf.length := by
  intro buf
  induction buf with
  | nil => intro u shift v rest h; exact absurd h (by simp [decodeUintLoop_nil])
  | cons b bs ih =>
    intro u shift v rest h
    rw [decodeUintLoop_cons] at h
    by_cases h1 : 63 ≤ b ∧ b < 95
    · rw [if_pos h1] at h
      simp only [Except.ok.injEq, Prod.mk.injEq] at h
      rw [← h.2]
      simp
    · rw [if_neg h1] at h
      by_cases h2 : 95 ≤ b ∧ b < 127
      · rw [if_pos h2] at h
        exact Nat.lt_succ_of_lt (ih _ _ _ _ h)
      · rw [if_neg h2] at h
        exact absurd h (by simp)

theorem decodeInt_consume (buf : List ℕ) (j : ℤ) (rest : List ℕ)
    (h : DecodeInt buf = .ok (j, rest)) : rest.length < buf.length := by
  cases hu : DecodeUint buf with
  | error e =>
    rw [decodeInt_of_decodeUint_error _ _ hu] at h
    exact absurd h (by simp)
  | ok p =>
    obtain ⟨u, r⟩ := p
    rw [decodeInt_of_decodeUint_ok _ _ _ hu] at h
    have hr : r = rest := by
      split at h <;> simp only [Except.ok.injEq, Prod.mk.injEq] at h <;> exact h.2
    subst hr
    exact decodeUintLoop_consume buf 0 0 u r hu

theorem decodeInts_consume :
    ∀ d buf js rest, decodeInts d buf = .ok (js, rest) →
      rest.length ≤ buf.length ∧ (1 ≤ d → rest.length < buf.length) := by
  intro d
  induction d with
  | zero =>
    intro buf js rest h
    simp only [decodeInts, Except.ok.injEq, Prod.mk.injEq] at h
    rw [← h.2]
    exact ⟨le_rfl, by omega⟩
  | succ d ih =>
    intro buf js rest h
    cases hd : DecodeInt buf with
    | error e => rw [decodeInts_succ_error d buf e hd] at h; exact absurd h (by simp)
    | ok p =>
      obtain ⟨j, buf1⟩ := p
      rw [decodeInts_succ_ok d buf j buf1 hd] at h
      cases h2 : decodeInts d buf1 with
      | error e => rw [h2] at h; exact absurd h (by simp)
      | ok q =>
        obtain ⟨js1, buf2⟩ := q
        rw [h2] at h
        simp only [Except.ok.injEq, Prod.mk.injEq] at h
        have hc1 := decodeInt_consume buf j buf1 hd
        have hc2 := (ih buf1 js1 buf2 h2).1
        rw [← h.2]
        exact ⟨by omega, fun _ => by omega⟩

/-! ## Encoder structure -/

theorem encInts_length_pos (j : ℤ) (js : List ℤ) : 0 < (encInts (j :: js)).length := by
  simp only [encInts, List.length_append]
  have := List.length_pos.mpr (encodeInt_ne_nil j)
  omega

theorem encodeCoordDelta_eq (c : Codec) :
    ∀ (coord : List ℚ) (last : List ℤ) (buf : List ℕ), coord.length = last.length →
      encodeCoordDelta c coord last buf =
        some (coord.map fun x => round (c.Scale * x),
          buf ++ encInts (List.zipWith (fun a b => a - b)
            (coord.map fun x => round (c.Scale * x)) last)) := by
  intro coord
  induction coord with
  | nil =>
    intro last buf hlen
    have hl : last = [] := List.length_eq_zero.mp (by simpa using hlen.symm)
    subst hl
    simp [encodeCoordDelta, encInts]
  | cons x xs ih =>
    intro last buf hlen
    cases last with
    | nil => simp at hlen
    | cons l ls =>
      have hlen1 : xs.length = ls.length := by simpa using hlen
      simp only [encodeCoordDelta]
      rw [ih ls (EncodeInt buf (round (c.Scale * x) - l)) hlen1]
      simp only [List.map_cons, List.zipWith_cons_cons, encInts]
      rw [encodeInt_eq_append buf (round (c.Scale * x) - l)]
      simp [List.append_assoc]

theorem encodeCoordsLoop_eq (c : Codec) :
    ∀ (coords : List (List ℚ)) (last : List ℤ) (buf : List ℕ),
      (∀ coord ∈ coords, coord.length = last.length) →
      encodeCoordsLoop c coords last buf =
        some (buf ++ encInts (deltas last (scaled c coords)).flatten) := by
  intro coords
  induction coords with
  | nil => intro last buf _; simp [encodeCoordsLoop, scaled, deltas, encInts]
  | cons coord rest ih =>
    intro last buf hall
    have h1 : coord.length = last.length := hall coord (by simp)
    simp only [encodeCoordsLoop]
    rw [encodeCoordDelta_eq c coord last buf h1]
    show encodeCoordsLoop c rest (coord.map fun x => round (c.Scale * x))
        (buf ++ encInts (List.zipWith (fun a b => a - b)
          (coord.map fun x => round (c.Scale * x)) last)) = _
    rw [ih (coord.map fun x => round (c.Scale * x)) _
      (fun cd hcd => by
        rw [List.length_map, h1]
        exact hall cd (List.mem_cons_of_mem _ hcd))]
    simp only [scaled, List.map_cons, deltas, List.flatten_cons, encInts_append,
      List.append_assoc]

theorem encodeCoords_eq (c : Codec) (coords : List (List ℚ))
    (h : ∀ coord ∈ coords, coord.length = c.Dim) :
    c.EncodeCoords [] coords = some (encBytes c coords) := by
  unfold Codec.EncodeCoords encBytes
  rw [encodeCoordsLoop_eq c coords _ [] (by simpa using h)]
  simp

/-! ## Decoding an encoded stream -/

theorem decodeCoord_encInts (c : Codec) (js : List ℤ) (hlen : js.length = c.Dim)
    (hr : ∀ j ∈ js, -(2 ^ 63) < j ∧ j < 2 ^ 63) (rest : List ℕ) :
    c.DecodeCoord (encInts js ++ rest) =
      .ok (js.map fun j : ℤ => (j : ℚ) / c.Scale, rest) := by
  unfold Codec.DecodeCoord
  rw [decodeCoordAux_eq, ← hlen, decodeInts_encInts js hr rest]
  simp [Except.map]

theorem decodeCoordsLoop_nil_buf (c : Codec) (fuel : ℕ) (prev : List ℚ) :
    decodeCoordsLoop c fuel prev [] = some (.ok []) := by
  cases fuel <;> rfl

theorem decodeCoordsLoop_succ (c : Codec) (fuel : ℕ) (prev : List ℚ)
    (b : ℕ) (bs : List ℕ) :
    decodeCoordsLoop c (fuel + 1) prev (b :: bs) =
      match c.DecodeCoord (b :: bs) with
      | .error e => some (.error e)
      | .ok (coord, buf1) =>
        match decodeCoordsLoop c fuel (List.zipWith (fun x y => x + y) coord prev) buf1 with
        | none => none
        | some (.error e) => some (.error e)
        | some (.ok rest) =>
          some (.ok (List.zipWith (fun x y => x + y) coord prev :: rest)) := rfl

theorem decodeCoordsLoop_succ_of_ne_nil (c : Codec) (fuel : ℕ) (prev : List ℚ)
    (buf : List ℕ) (hb : buf ≠ []) :
    decodeCoordsLoop c (fuel + 1) prev buf =
      match c.DecodeCoord buf with
      | .error e => some (.error e)
      | .ok (coord, buf1) =>
        match decodeCoordsLoop c fuel (List.zipWith (fun x y => x + y) coord prev) buf1 with
        | none => none
        | some (.error e) => some (.error e)
        | some (.ok rest) =>
          some (.ok (List.zipWith (fun x y => x + y) coord prev :: rest)) := by
  cases buf with
  | nil => exact absurd rfl hb
  | cons b bs => exact decodeCoordsLoop_succ c fuel prev b bs

theorem zipWith_sub_range (v prev : List ℤ)
    (hv : ∀ j ∈ v, |j| < 2 ^ 62) (hp : ∀ j ∈ prev, |j| < 2 ^ 62) :
    ∀ j ∈ List.zipWith (fun a b => a - b) v prev, -(2 ^ 63) < j ∧ j < 2 ^ 63 := by
  induction v generalizing prev with
  | nil => intro j hj; simp at hj
  | cons x xs ih =>
    intro j hj
    cases prev with
    | nil => simp at hj
    | cons y ys =>
      simp only [List.zipWith_cons_cons, List.mem_cons] at hj
      rcases hj with hj | hj
      · have h1 := abs_lt.mp (hv x (by simp))
        have h2 := abs_lt.mp (hp y (by simp))
        subst hj
        constructor <;> nlinarith [h1.1, h1.2, h2.1, h2.2]
      · exact ih ys (fun a ha => hv a (List.mem_cons_of_mem _ ha))
          (fun a ha => hp a (List.mem_cons_of_mem _ ha)) j hj

theorem zipWith_add_scaled (s : ℚ) :
    ∀ v prev : List ℤ, v.length = prev.length →
      List.zipWith (fun x y => x + y)
          ((List.zipWith (fun a b => a - b) v prev).map fun j : ℤ => (j : ℚ) / s)
          (prev.map fun j : ℤ => (j : ℚ) / s)
        = v.map fun j : ℤ => (j : ℚ) / s := by
  intro v
  induction v with
  | nil =>
    intro prev h
    have hp : prev = [] := List.length_eq_zero.mp (by simpa using h.symm)
    subst hp
    simp
  | cons x xs ih =>
    intro prev h
    cases prev with
    | nil => simp at h
    | cons y ys =>
      simp only [List.zipWith_cons_cons, List.map_cons]
      rw [ih ys (by simpa using h)]
      congr 1
      push_cast
      ring

theorem deltas_cons (last v : List ℤ) (vs : List (List ℤ)) :
    deltas last (v :: vs) = List.zipWith (fun a b => a - b) v last :: deltas v vs := rfl

theorem decodeCoordsLoop_step (c : Codec) (fuel : ℕ) (prev coord : List ℚ)
    (buf buf1 : List ℕ) (hb : buf ≠ []) (h : c.DecodeCoord buf = .ok (coord, buf1)) :
    decodeCoordsLoop c (fuel + 1) prev buf =
      match decodeCoordsLoop c fuel (List.zipWith (fun x y => x + y) coord prev) buf1 with
      | none => none
      | some (.error e) => some (.error e)
      | some (.ok rest) =>
        some (.ok (List.zipWith (fun x y => x + y) coord prev :: rest)) := by
  rw [decodeCoordsLoop_succ_of_ne_nil c fuel prev buf hb, h]

theorem decodeCoordsLoop_encInts (c : Codec) :
    ∀ (vs : List (List ℤ)) (prev : List ℤ) (fuel : ℕ),
      (∀ v ∈ vs, v.length = c.Dim) → prev.length = c.Dim → 1 ≤ c.Dim →
      (∀ v ∈ vs, ∀ j ∈ v, |j| < 2 ^ 62) → (∀ j ∈ prev, |j| < 2 ^ 62) →
      (encInts (deltas prev vs).flatten).length ≤ fuel →
      decodeCoordsLoop c fuel (prev.map fun j : ℤ => (j : ℚ) / c.Scale)
          (encInts (deltas prev vs).flatten) =
        some (.ok (vs.map (List.map fun j : ℤ => (j : ℚ) / c.Scale))) := by
  intro vs
  induction vs with
  | nil =>
    intro prev fuel _ _ _ _ _ _
    show decodeCoordsLoop c fuel _ (encInts ((deltas prev []).flatten)) = _
    have h0 : (deltas prev []).flatten = [] := rfl
    rw [h0]
    show decodeCoordsLoop c fuel _ [] = _
    rw [decodeCoordsLoop_nil_buf]
    rfl
  | cons v vs ih =>
    intro prev fuel hlenv hlenp hdim hbv hbp hfuel
    rw [deltas_cons, List.flatten_cons, encInts_append] at hfuel ⊢
    have hvlen : v.length = c.Dim := hlenv v (List.mem_cons_self v vs)
    have hΔlen : (List.zipWith (fun a b => a - b) v prev).length = c.Dim := by
      rw [List.length_zipWith, hvlen, hlenp]
      exact min_self _
    have hΔne : List.zipWith (fun a b => a - b) v prev ≠ [] := by
      intro hnil
      rw [hnil] at hΔlen
      simp at hΔlen
      omega
    obtain ⟨d0, ds, hds⟩ := List.exists_cons_of_ne_nil hΔne
    have hEpos : 0 < (encInts (List.zipWith (fun a b => a - b) v prev)).length := by
      rw [hds]
      exact encInts_length_pos d0 ds
    have hlapp := List.length_append (encInts (List.zipWith (fun a b => a - b) v prev))
      (encInts (deltas v vs).flatten)
    obtain ⟨f, rfl⟩ : ∃ f, fuel = f + 1 := ⟨fuel - 1, by omega⟩
    have hbufne : encInts (List.zipWith (fun a b => a - b) v prev) ++
        encInts (deltas v vs).flatten ≠ [] := by
      apply List.ne_nil_of_length_pos
      rw [List.length_append]
      omega
    have hrange : ∀ j ∈ List.zipWith (fun a b => a - b) v prev,
        -(2 ^ 63) < j ∧ j < 2 ^ 63 :=
      zipWith_sub_range v prev (hbv v (List.mem_cons_self v vs)) hbp
    rw [decodeCoordsLoop_step c f _ _ _ _ hbufne
      (decodeCoord_encInts c _ hΔlen hrange (encInts (deltas v vs).flatten))]
    rw [zipWith_add_scaled c.Scale v prev (by rw [hvlen, hlenp])]
    rw [ih v f (fun a ha => hlenv a (List.mem_cons_of_mem _ ha)) hvlen hdim
      (fun a ha => hbv a (List.mem_cons_of_mem _ ha))
      (hbv v (List.mem_cons_self v vs)) (by omega)]
    rfl

theorem decodeCoords_of_first (c : Codec) (buf buf1 : List ℕ) (coord : List ℚ)
    (h : c.DecodeCoord buf = .ok (coord, buf1)) :
    c.DecodeCoords buf =
      match decodeCoordsLoop c buf1.length coord buf1 with
      | none => none
      | some (.error e) => some (.error e)
      | some (.ok rest) => some (.ok (coord :: rest, [])) := by
  unfold Codec.DecodeCoords
  rw [h]

theorem zipWith_sub_replicate_zero :
    ∀ (w : List ℤ) (n : ℕ), w.length = n →
      List.zipWith (fun a b => a - b) w (List.replicate n 0) = w := by
  intro w
  induction w with
  | nil => intro n _; simp
  | cons x xs ih =>
    intro n hn
    cases n with
    | zero => simp at hn
    | succ m =>
      simp only [List.replicate_succ, List.zipWith_cons_cons, sub_zero]
      rw [ih m (by simpa using hn)]

theorem round_div_scale_close (s : ℚ) (hs : 0 < s) (x : ℚ) :
    |((round (s * x) : ℤ) : ℚ) / s - x| ≤ 1 / (2 * s) := by
  have h := abs_round_sub_le (s * x)
  have hs0 : s ≠ 0 := ne_of_gt hs
  have heq : ((round (s * x) : ℤ) : ℚ) / s - x = (((round (s * x) : ℤ) : ℚ) - s * x) / s := by
    field_simp
  rw [heq]
  rw [abs_div, abs_of_pos hs]
  rw [show (1 : ℚ) / (2 * s) = (1 / 2) / s from by ring]
  exact (div_le_div_iff_of_pos_right hs).mpr h

theorem range_of_abs_lt (j : ℤ) (h : |j| < 2 ^ 62) : -(2 ^ 63) < j ∧ j < 2 ^ 63 := by
  have h2 := abs_lt.mp h
  have e2 : ((2 : ℤ) ^ 62) = 4611686018427387904 := by norm_num
  have e3 : ((2 : ℤ) ^ 63) = 9223372036854775808 := by norm_num
  rw [e2] at h2
  rw [e3]
  omega

/-! ## Claim theorems: scalar layer -/

/-- C2 (amended): `DecodeUint ∘ EncodeUint` is the identity on every value of
Go's 64-bit `uint` type, and `DecodeInt ∘ EncodeInt` is the identity on every
value of Go's 64-bit `int` type except the minimum `-2^63`, always with empty
remainder and no error. -/
theorem c2_scalar_roundtrip :
    (∀ u : ℕ, u < 2 ^ 64 → DecodeUint (EncodeUint [] u) = .ok (u, [])) ∧
    (∀ i : ℤ, -(2 ^ 63) < i → i < 2 ^ 63 → DecodeInt (EncodeInt [] i) = .ok (i, [])) := by
  constructor
  · intro u hu
    have h := decodeUint_encodeUint u hu []
    rwa [List.append_nil] at h
  · intro i h1 h2
    have h := decodeInt_encodeInt i h1 h2 []
    rwa [List.append_nil] at h

theorem c2_scalar_roundtrip_witness :
    DecodeUint (EncodeUint [] 174) = .ok (174, []) ∧
    DecodeInt (EncodeInt [] (-17)) = .ok (-17, []) :=
  ⟨c2_scalar_roundtrip.1 174 (by norm_num),
   c2_scalar_roundtrip.2 (-17) (by norm_num) (by norm_num)⟩

/-- C2 counterexample: at the minimum 64-bit signed integer `-2^63`, zigzag
overflows (`i << 1` wraps to 0, `^0 = -1`, `uint(-1) = 2^64 - 1`, and on
decode `u + 1` wraps to 0), so the round trip returns `0`, not `-2^63`. -/
theorem c2_scalar_roundtrip_counterexample :
    DecodeInt (EncodeInt [] (-(2 ^ 63))) = .ok (0, []) ∧ ((-(2 ^ 63) : ℤ) ≠ 0) :=
  ⟨by decide, by decide⟩

/-- C4: `EncodeInt` zigzag-maps its argument (a non-negative `v` to `v * 2`,
a negative `v` to `-v*2 - 1`, the bitwise complement of `v * 2`) and delegates
to `EncodeUint`; `DecodeInt` maps an even decoded `u` to `+(u >> 1)`, an odd
`u` to `-((u+1) >> 1)` (in 64-bit arithmetic), and propagates any decode
error unchanged. -/
theorem c4_zigzag_encode_decode :
    (∀ (buf : List ℕ) (i : ℤ), -(2 ^ 63) ≤ i → i < 2 ^ 63 →
      EncodeInt buf i = EncodeUint buf (if 0 ≤ i then 2 * i else -(2 * i) - 1).toNat) ∧
    (∀ (buf : List ℕ) (u : ℕ) (rest : List ℕ), DecodeUint buf = .ok (u, rest) →
      DecodeInt buf = if u % 2 = 0 then .ok ((u / 2 : ℕ), rest)
        else .ok (-(((u + 1) % 2 ^ 64 / 2 : ℕ) : ℤ), rest)) ∧
    (∀ (buf : List ℕ) (e : PErr), DecodeUint buf = .error e → DecodeInt buf = .error e) := by
  refine ⟨?_, fun buf u rest h => decodeInt_of_decodeUint_ok buf u rest h,
    fun buf e h => decodeInt_of_decodeUint_error buf e h⟩
  intro buf i h1 h2
  unfold EncodeInt
  by_cases hi : i < 0
  · rw [if_pos hi, if_neg (not_le.mpr hi), toUint64_zig_neg i hi h1]
  · rw [if_neg hi, if_pos (not_lt.mp hi), toUint64_zig_nonneg i (not_lt.mp hi) h2]

theorem c4_zigzag_witness :
    EncodeInt [] (-17) = EncodeUint [] ((33 : ℤ).toNat) ∧
    DecodeInt [63] = .ok (0, []) ∧
    DecodeInt [32] = .error .invalidByte := by
  refine ⟨?_, ?_, c4_zigzag_encode_decode.2.2 [32] .invalidByte (by decide)⟩
  · have h := c4_zigzag_encode_decode.1 [] (-17) (by norm_num) (by norm_num)
    have h2 : (if (0 : ℤ) ≤ -17 then 2 * (-17 : ℤ) else -(2 * (-17 : ℤ)) - 1) = 33 := by
      norm_num
    rwa [h2] at h
  · have h := c4_zigzag_encode_decode.2.1 [63] 0 [] (by decide)
    simpa using h

/-- C5: `DecodeUint` consumes continuation bytes in `[95,127)`, accumulating
`(byte - 95) << shift` with shift growing by 5; a byte in `[63,95)` terminates,
contributing `(byte - 63) << shift`; a consumed byte outside `[63,127)` gives
`invalidByte`; exhausting the buffer without a terminator gives
`unterminatedSequence`. -/
theorem c5_decodeUint_spec :
    (∀ buf : List ℕ, (∀ x ∈ buf, 95 ≤ x ∧ x < 127) →
        DecodeUint buf = .error .unterminatedSequence) ∧
    (∀ (pre : List ℕ) (b : ℕ) (rest : List ℕ), (∀ x ∈ pre, 95 ≤ x ∧ x < 127) →
        ¬(63 ≤ b ∧ b < 127) → DecodeUint (pre ++ b :: rest) = .error .invalidByte) ∧
    (∀ (pre : List ℕ) (b : ℕ) (rest : List ℕ), (∀ x ∈ pre, 95 ≤ x ∧ x < 127) →
        63 ≤ b → b < 95 →
        DecodeUint (pre ++ b :: rest) = .ok (uintValue pre b % 2 ^ 64, rest)) := by
  refine ⟨fun buf h => decodeUintLoop_unterminated buf 0 0 h,
    fun pre b rest h hb => decodeUintLoop_invalid pre b rest 0 0 h hb,
    fun pre b rest h hb1 hb2 => ?_⟩
  have hk := decodeUintLoop_terminated pre b rest 0 0 h hb1 hb2
  unfold DecodeUint
  rw [hk]
  rw [Nat.zero_add]
  rfl

theorem c5_decodeUint_witness :
    DecodeUint [100] = .error .unterminatedSequence ∧
    DecodeUint [100, 30] = .error .invalidByte ∧
    DecodeUint [100, 70] = .ok (229, []) := by
  refine ⟨c5_decodeUint_spec.1 [100] (by decide),
    c5_decodeUint_spec.2.1 [100] 30 [] (by decide) (by decide), ?_⟩
  have h := c5_decodeUint_spec.2.2 [100] 70 [] (by decide) (by decide) (by decide)
  norm_num [uintValue, uintValueAux] at h
  exact h

/-! ## Claim theorem: sequence round trip (C1) -/

/-- C1: for a non-empty coordinate list whose coordinates all have `Dim`
components (with `Dim ≥ 1`, `Scale > 0`, and the scaled, rounded components
within the machine-safe range), `DecodeCoords (EncodeCoords [] coords)`
succeeds with no error and empty remainder, and the decoded list has the same
length, coordinates of `Dim` components each, every component within
`1/(2*Scale)` of the original. -/
theorem c1_coords_roundtrip (c : Codec) (coords : List (List ℚ))
    (hne : coords ≠ []) (hdim : 1 ≤ c.Dim) (hs : 0 < c.Scale)
    (hlen : ∀ coord ∈ coords, coord.length = c.Dim)
    (hbound : ∀ coord ∈ coords, ∀ x ∈ coord, |round (c.Scale * x)| < 2 ^ 62) :
    c.EncodeCoords [] coords = some (encBytes c coords) ∧
    c.DecodeCoords (encBytes c coords) = some (.ok (roundTrip c coords, [])) ∧
    (roundTrip c coords).length = coords.length ∧
    (∀ coord ∈ roundTrip c coords, coord.length = c.Dim) ∧
    List.Forall₂ (List.Forall₂ fun y x => |y - x| ≤ 1 / (2 * c.Scale))
      (roundTrip c coords) coords := by
  refine ⟨encodeCoords_eq c coords hlen, ?_, by simp [roundTrip], ?_, ?_⟩
  · obtain ⟨coord0, rest, rfl⟩ := List.exists_cons_of_ne_nil hne
    have hwlen : (coord0.map fun x => round (c.Scale * x)).length = c.Dim := by
      rw [List.length_map]
      exact hlen coord0 (List.mem_cons_self _ _)
    have hB : encBytes c (coord0 :: rest) =
        encInts (coord0.map fun x => round (c.Scale * x)) ++
          encInts (deltas (coord0.map fun x => round (c.Scale * x))
            (scaled c rest)).flatten := by
      unfold encBytes
      rw [show scaled c (coord0 :: rest)
          = (coord0.map fun x => round (c.Scale * x)) :: scaled c rest from rfl]
      rw [deltas_cons, zipWith_sub_replicate_zero _ c.Dim hwlen, List.flatten_cons,
        encInts_append]
    have hwrange : ∀ j ∈ coord0.map fun x => round (c.Scale * x),
        -(2 ^ 63) < j ∧ j < 2 ^ 63 := by
      intro j hj
      rw [List.mem_map] at hj
      obtain ⟨x, hx, rfl⟩ := hj
      exact range_of_abs_lt _ (hbound coord0 (List.mem_cons_self _ _) x hx)
    rw [hB]
    rw [decodeCoords_of_first c _ _ _
      (decodeCoord_encInts c _ hwlen hwrange
        (encInts (deltas (coord0.map fun x => round (c.Scale * x))
          (scaled c rest)).flatten))]
    rw [decodeCoordsLoop_encInts c (scaled c rest)
      (coord0.map fun x => round (c.Scale * x)) _
      (fun v hv => by
        simp only [scaled, List.mem_map] at hv
        obtain ⟨a, ha, rfl⟩ := hv
        rw [List.length_map]
        exact hlen a (List.mem_cons_of_mem _ ha))
      hwlen hdim
      (fun v hv j hj => by
        simp only [scaled, List.mem_map] at hv
        obtain ⟨a, ha, rfl⟩ := hv
        rw [List.mem_map] at hj
        obtain ⟨x, hx, rfl⟩ := hj
        exact hbound a (List.mem_cons_of_mem _ ha) x hx)
      (fun j hj => by
        rw [List.mem_map] at hj
        obtain ⟨x, hx, rfl⟩ := hj
        exact hbound coord0 (List.mem_cons_self _ _) x hx)
      le_rfl]
    rw [show roundTrip c (coord0 :: rest)
        = (coord0.map fun x => ((round (c.Scale * x) : ℤ) : ℚ) / c.Scale)
          :: roundTrip c rest from rfl]
    simp [roundTrip, scaled, List.map_map, Function.comp_def]
  · intro coord hc
    simp only [roundTrip, List.mem_map] at hc
    obtain ⟨a, ha, rfl⟩ := hc
    rw [List.length_map]
    exact hlen a ha
  · unfold roundTrip
    rw [List.forall₂_map_left_iff]
    apply List.forall₂_same.mpr
    intro a _
    rw [List.forall₂_map_left_iff]
    apply List.forall₂_same.mpr
    intro x _
    exact round_div_scale_close c.Scale hs x

/-! ## Termination of the decode loops -/

theorem decodeCoordsLoop_step_error (c : Codec) (fuel : ℕ) (prev : List ℚ)
    (buf : List ℕ) (e : PErr) (hb : buf ≠ []) (h : c.DecodeCoord buf = .error e) :
    decodeCoordsLoop c (fuel + 1) prev buf = some (.error e) := by
  rw [decodeCoordsLoop_succ_of_ne_nil c fuel prev buf hb, h]

theorem decodeCoord_consume (c : Codec) (hdim : 1 ≤ c.Dim) (buf : List ℕ)
    (coord : List ℚ) (buf1 : List ℕ) (h : c.DecodeCoord buf = .ok (coord, buf1)) :
    buf1.length < buf.length := by
  unfold Codec.DecodeCoord at h
  rw [decodeCoordAux_eq] at h
  cases hd : decodeInts c.Dim buf with
  | error e => rw [hd] at h; exact absurd h (by simp [Except.map])
  | ok p =>
    obtain ⟨js, buf2⟩ := p
    rw [hd] at h
    simp only [Except.map, Except.ok.injEq, Prod.mk.injEq] at h
    have hc := (decodeInts_consume c.Dim buf js buf2 hd).2 hdim
    rw [← h.2]
    exact hc

theorem decodeCoord_length (c : Codec) (buf : List ℕ)
    (coord : List ℚ) (buf1 : List ℕ) (h : c.DecodeCoord buf = .ok (coord, buf1)) :
    coord.length = c.Dim := by
  unfold Codec.DecodeCoord at h
  rw [decodeCoordAux_eq] at h
  cases hd : decodeInts c.Dim buf with
  | error e => rw [hd] at h; exact absurd h (by simp [Except.map])
  | ok p =>
    obtain ⟨js, buf2⟩ := p
    rw [hd] at h
    simp only [Except.map, Except.ok.injEq, Prod.mk.injEq] at h
    rw [← h.1, List.length_map]
    exact decodeInts_length c.Dim buf js buf2 hd

theorem decodeCoordsLoop_isSome (c : Codec) (hdim : 1 ≤ c.Dim) :
    ∀ fuel buf prev, buf.length ≤ fuel → (decodeCoordsLoop c fuel prev buf).isSome := by
  intro fuel
  induction fuel with
  | zero =>
    intro buf prev h
    have hb : buf = [] := List.eq_nil_of_length_eq_zero (by omega)
    subst hb
    rw [decodeCoordsLoop_nil_buf]
    rfl
  | succ fuel ih =>
    intro buf prev h
    cases buf with
    | nil => rw [decodeCoordsLoop_nil_buf]; rfl
    | cons b bs =>
      cases hdc : c.DecodeCoord (b :: bs) with
      | error e => rw [decodeCoordsLoop_step_error c fuel prev _ e (by simp) hdc]; rfl
      | ok p =>
        obtain ⟨coord, buf1⟩ := p
        rw [decodeCoordsLoop_step c fuel prev coord _ buf1 (by simp) hdc]
        have hlt : buf1.length ≤ fuel := by
          have := decodeCoord_consume c hdim _ coord buf1 hdc
          simp only [List.length_cons] at this h
          omega
        have hrec := ih buf1 (List.zipWith (fun x y => x + y) coord prev) hlt
        cases hr : decodeCoordsLoop c fuel
            (List.zipWith (fun x y => x + y) coord prev) buf1 with
        | none => rw [hr] at hrec; exact absurd hrec (by simp)
        | some r =>
          cases r with
          | error e => rfl
          | ok rest => rfl

theorem decodeCoordsLoop_dim_zero (c : Codec) (hdim : c.Dim = 0) :
    ∀ (fuel : ℕ) (prev : List ℚ) (b : ℕ) (bs : List ℕ),
      decodeCoordsLoop c fuel prev (b :: bs) = none := by
  intro fuel
  induction fuel with
  | zero => intro prev b bs; rfl
  | succ fuel ih =>
    intro prev b bs
    have hdc : c.DecodeCoord (b :: bs) = .ok ([], b :: bs) := by
      unfold Codec.DecodeCoord
      rw [hdim]
      rfl
    rw [decodeCoordsLoop_step c fuel prev [] _ (b :: bs) (by simp) hdc]
    rw [ih (List.zipWith (fun x y => x + y) [] prev) b bs]

/-! ## Flat decode loop -/

theorem decodeFlatLoop_nil_buf (c : Codec) (fuel : ℕ) (last : List ℤ) :
    decodeFlatLoop c fuel last [] = some (.ok []) := by
  cases fuel <;> rfl

theorem decodeFlatLoop_succ_of_ne_nil (c : Codec) (fuel : ℕ) (last : List ℤ)
    (buf : List ℕ) (hb : buf ≠ []) :
    decodeFlatLoop c (fuel + 1) last buf =
      match flatGroup c last buf with
      | .error e => some (.error e)
      | .ok (last1, vals, buf1) =>
        match decodeFlatLoop c fuel last1 buf1 with
        | none => none
        | some (.error e) => some (.error e)
        | some (.ok vals1) => some (.ok (vals ++ vals1)) := by
  cases buf with
  | nil => exact absurd rfl hb
  | cons b bs => rfl

theorem decodeFlatLoop_step (c : Codec) (fuel : ℕ) (last last1 : List ℤ)
    (vals : List ℚ) (buf buf1 : List ℕ) (hb : buf ≠ [])
    (h : flatGroup c last buf = .ok (last1, vals, buf1)) :
    decodeFlatLoop c (fuel + 1) last buf =
      match decodeFlatLoop c fuel last1 buf1 with
      | none => none
      | some (.error e) => some (.error e)
      | some (.ok vals1) => some (.ok (vals ++ vals1)) := by
  rw [decodeFlatLoop_succ_of_ne_nil c fuel last buf hb, h]

theorem decodeFlatLoop_step_error (c : Codec) (fuel : ℕ) (last : List ℤ)
    (buf : List ℕ) (e : PErr) (hb : buf ≠ []) (h : flatGroup c last buf = .error e) :
    decodeFlatLoop c (fuel + 1) last buf = some (.error e) := by
  rw [decodeFlatLoop_succ_of_ne_nil c fuel last buf hb, h]

theorem flatGroup_ok_facts (c : Codec) (last : List ℤ) (buf : List ℕ)
    (last1 : List ℤ) (vals : List ℚ) (buf1 : List ℕ)
    (h : flatGroup c last buf = .ok (last1, vals, buf1)) :
    last1.length = last.length ∧ buf1.length ≤ buf.length ∧
      (1 ≤ last.length → buf1.length < buf.length) := by
  rw [flatGroup_eq] at h
  cases hd : decodeInts last.length buf with
  | error e => rw [hd] at h; exact absurd h (by simp [Except.map])
  | ok p =>
    obtain ⟨ks, buf2⟩ := p
    rw [hd] at h
    simp only [Except.map, Except.ok.injEq, Prod.mk.injEq] at h
    have hk : ks.length = last.length := decodeInts_length _ buf ks buf2 hd
    have hcons := decodeInts_consume last.length buf ks buf2 hd
    refine ⟨?_, ?_, ?_⟩
    · rw [← h.1, List.length_zipWith, hk]
      exact min_self _
    · rw [← h.2.2]
      exact hcons.1
    · intro h1
      rw [← h.2.2]
      exact hcons.2 h1

theorem decodeFlatLoop_isSome (c : Codec) (hdim : 1 ≤ c.Dim) :
    ∀ fuel last buf, last.length = c.Dim → buf.length ≤ fuel →
      (decodeFlatLoop c fuel last buf).isSome := by
  intro fuel
  induction fuel with
  | zero =>
    intro last buf _ h
    have hb : buf = [] := List.eq_nil_of_length_eq_zero (by omega)
    subst hb
    rw [decodeFlatLoop_nil_buf]
    rfl
  | succ fuel ih =>
    intro last buf hlast h
    cases buf with
    | nil => rw [decodeFlatLoop_nil_buf]; rfl
    | cons b bs =>
      cases hg : flatGroup c last (b :: bs) with
      | error e => rw [decodeFlatLoop_step_error c fuel last _ e (by simp) hg]; rfl
      | ok p =>
        obtain ⟨last1, vals, buf1⟩ := p
        rw [decodeFlatLoop_step c fuel last last1 vals _ buf1 (by simp) hg]
        obtain ⟨hl1, _, hlt⟩ := flatGroup_ok_facts c last _ last1 vals buf1 hg
        have hfuel1 : buf1.length ≤ fuel := by
          have := hlt (by omega)
          simp only [List.length_cons] at this h
          omega
        have hrec := ih last1 buf1 (by omega) hfuel1
        cases hr : decodeFlatLoop c fuel last1 buf1 with
        | none => rw [hr] at hrec; exact absurd hrec (by simp)
        | some r =>
          cases r with
          | error e => rfl
          | ok vals1 => rfl

/-- C9: with `Dim ≥ 1`, `DecodeCoords` and `DecodeFlatCoords` terminate on
every byte buffer (each successfully decoded coordinate consumes at least one
byte, so the `buf.length` fuel supplied by the entry points is never
exhausted); with `Dim = 0`, `DecodeCoord` consumes no bytes, so on a
non-empty buffer the decode loop makes no progress: no amount of fuel
suffices and `DecodeCoords` diverges. -/
theorem c9_decode_terminates (c : Codec) (fcs : List ℚ) (buf : List ℕ) :
    (1 ≤ c.Dim →
      (c.DecodeCoords buf).isSome ∧ (c.DecodeFlatCoords fcs buf).isSome) ∧
    (c.Dim = 0 → ∀ (fuel : ℕ) (prev : List ℚ) (b : ℕ) (bs : List ℕ),
      decodeCoordsLoop c fuel prev (b :: bs) = none ∧
        c.DecodeCoords (b :: bs) = none) := by
  constructor
  · intro hdim
    constructor
    · cases hdc : c.DecodeCoord buf with
      | error e =>
        unfold Codec.DecodeCoords
        rw [hdc]
        rfl
      | ok p =>
        obtain ⟨coord, buf1⟩ := p
        rw [decodeCoords_of_first c buf buf1 coord hdc]
        have hrec := decodeCoordsLoop_isSome c hdim buf1.length buf1 coord le_rfl
        cases hr : decodeCoordsLoop c buf1.length coord buf1 with
        | none => rw [hr] at hrec; exact absurd hrec (by simp)
        | some r => cases r with
          | error e => rfl
          | ok rest => rfl
    · unfold Codec.DecodeFlatCoords
      by_cases hm : fcs.length % c.Dim ≠ 0
      · rw [if_pos hm]; rfl
      · rw [if_neg hm]
        have hrec := decodeFlatLoop_isSome c hdim buf.length (List.replicate c.Dim 0)
          buf (by simp) le_rfl
        cases hr : decodeFlatLoop c buf.length (List.replicate c.Dim 0) buf with
        | none => rw [hr] at hrec; exact absurd hrec (by simp)
        | some r => cases r with
          | error e => rfl
          | ok vals => rfl
  · intro hdim fuel prev b bs
    refine ⟨decodeCoordsLoop_dim_zero c hdim fuel prev b bs, ?_⟩
    have hdc : c.DecodeCoord (b :: bs) = .ok ([], b :: bs) := by
      unfold Codec.DecodeCoord
      rw [hdim]
      rfl
    rw [decodeCoords_of_first c _ _ [] hdc]
    rw [decodeCoordsLoop_dim_zero c hdim (b :: bs).length [] b bs]

theorem c9_decode_terminates_witness :
    ((defaultCodec.DecodeCoords [63]).isSome ∧
      (defaultCodec.DecodeFlatCoords [] [63]).isSome) ∧
    (decodeCoordsLoop ⟨0, 100000⟩ 5 [] [63] = none ∧
      Codec.DecodeCoords ⟨0, 100000⟩ [63] = none) :=
  ⟨(c9_decode_terminates defaultCodec [] [63]).1 (by decide),
   (c9_decode_terminates ⟨0, 100000⟩ [] [63]).2 rfl 5 [] 63 []⟩

/-! ## C10: bounds safety of EncodeCoords -/

theorem encodeCoordDelta_isSome (c : Codec) :
    ∀ (coord : List ℚ) (last : List ℤ) (buf : List ℕ), coord.length ≤ last.length →
      ∃ last1 buf1, encodeCoordDelta c coord last buf = some (last1, buf1) ∧
        last1.length = last.length := by
  intro coord
  induction coord with
  | nil => intro last buf _; exact ⟨last, buf, rfl, rfl⟩
  | cons x xs ih =>
    intro last buf hlen
    cases last with
    | nil => simp at hlen
    | cons l ls =>
      obtain ⟨ls1, buf1, heq, hl⟩ := ih ls
        (EncodeInt buf (round (c.Scale * x) - l)) (by simpa using hlen)
      refine ⟨round (c.Scale * x) :: ls1, buf1, ?_, by simp [hl]⟩
      simp only [encodeCoordDelta]
      rw [heq]

theorem encodeCoordDelta_none (c : Codec) :
    ∀ (coord : List ℚ) (last : List ℤ) (buf : List ℕ), last.length < coord.length →
      encodeCoordDelta c coord last buf = none := by
  intro coord
  induction coord with
  | nil => intro last buf h; simp at h
  | cons x xs ih =>
    intro last buf hlen
    cases last with
    | nil => rfl
    | cons l ls =>
      simp only [encodeCoordDelta]
      rw [ih ls (EncodeInt buf (round (c.Scale * x) - l)) (by simpa using hlen)]

theorem encodeCoordsLoop_isSome (c : Codec) :
    ∀ (coords : List (List ℚ)) (last : List ℤ) (buf : List ℕ),
      (∀ coord ∈ coords, coord.length ≤ last.length) →
      (encodeCoordsLoop c coords last buf).isSome := by
  intro coords
  induction coords with
  | nil => intro last buf _; rfl
  | cons coord rest ih =>
    intro last buf hall
    obtain ⟨last1, buf1, heq, hl⟩ := encodeCoordDelta_isSome c coord last buf
      (hall coord (List.mem_cons_self _ _))
    simp only [encodeCoordsLoop]
    rw [heq]
    exact ih last1 buf1 fun a ha => hl ▸ hall a (List.mem_cons_of_mem _ ha)

theorem encodeCoordsLoop_none (c : Codec) :
    ∀ (coords : List (List ℚ)) (last : List ℤ) (buf : List ℕ),
      (∃ coord ∈ coords, last.length < coord.length) →
      encodeCoordsLoop c coords last buf = none := by
  intro coords
  induction coords with
  | nil => intro last buf h; simp at h
  | cons coord rest ih =>
    intro last buf hex
    by_cases hc : last.length < coord.length
    · simp only [encodeCoordsLoop]
      rw [encodeCoordDelta_none c coord last buf hc]
    · obtain ⟨last1, buf1, heq, hl⟩ := encodeCoordDelta_isSome c coord last buf
        (not_lt.mp hc)
      simp only [encodeCoordsLoop]
      rw [heq]
      obtain ⟨a, ha, hlen⟩ := hex
      rcases List.mem_cons.mp ha with rfl | ha1
      · exact absurd hlen hc
      · exact ih last1 buf1 ⟨a, ha1, by rw [hl]; exact hlen⟩

/-- C10: `EncodeCoords` indexes the length-`Dim` accumulator `last` by each
coordinate's component index, so it is total (no out-of-bounds access) exactly
when every coordinate has at most `Dim` components; a coordinate with more
than `Dim` components makes the indexing out of bounds (a Go panic, modelled
as `none`). -/
theorem c10_encodeCoords_safety (c : Codec) (buf : List ℕ) (coords : List (List ℚ)) :
    ((∀ coord ∈ coords, coord.length ≤ c.Dim) → (c.EncodeCoords buf coords).isSome) ∧
    ((∃ coord ∈ coords, c.Dim < coord.length) → c.EncodeCoords buf coords = none) := by
  unfold Codec.EncodeCoords
  constructor
  · intro h
    exact encodeCoordsLoop_isSome c coords _ buf (by simpa using h)
  · intro h
    exact encodeCoordsLoop_none c coords _ buf (by simpa using h)

theorem c10_encodeCoords_safety_witness :
    (defaultCodec.EncodeCoords [] [[1, 2]]).isSome ∧
    defaultCodec.EncodeCoords [] [[1, 2, 3]] = none := by
  constructor
  · refine (c10_encodeCoords_safety defaultCodec [] [[1, 2]]).1 ?_
    intro coord hc
    rw [List.mem_singleton] at hc
    subst hc
    simp [defaultCodec]
  · refine (c10_encodeCoords_safety defaultCodec [] [[1, 2, 3]]).2 ?_
    exact ⟨[1, 2, 3], by simp, by simp [defaultCodec]⟩

/-- C7: decoding an empty buffer with `DecodeCoords` fails (the mandatory
first coordinate hits an empty buffer, yielding `unterminatedSequence`),
while `DecodeFlatCoords` on an empty buffer with a destination of valid
length succeeds, returning the destination unchanged. -/
theorem c7_empty_buffer (c : Codec) (fcs : List ℚ) (hdim : 1 ≤ c.Dim)
    (hf : fcs.length % c.Dim = 0) :
    c.DecodeCoords [] = some (.error .unterminatedSequence) ∧
    c.DecodeFlatCoords fcs [] = some (.ok (fcs, [])) := by
  constructor
  · obtain ⟨d, hd⟩ : ∃ d, c.Dim = d + 1 := ⟨c.Dim - 1, by omega⟩
    have hdc : c.DecodeCoord [] = .error .unterminatedSequence := by
      unfold Codec.DecodeCoord
      rw [hd]
      simp only [decodeCoordAux]
      rw [decodeInt_of_decodeUint_error [] .unterminatedSequence rfl]
    unfold Codec.DecodeCoords
    rw [hdc]
  · unfold Codec.DecodeFlatCoords
    rw [if_neg (by omega)]
    rw [decodeFlatLoop_nil_buf]
    simp

theorem c7_empty_buffer_witness :
    defaultCodec.DecodeCoords [] = some (.error .unterminatedSequence) ∧
    defaultCodec.DecodeFlatCoords [1, 2] [] = some (.ok ([1, 2], [])) :=
  c7_empty_buffer defaultCodec [1, 2] (by decide) (by decide)

/-- C8: with a flat buffer (for encoding) or a destination buffer (for
decoding) whose length is not divisible by `Dim`, both flat-array functions
fail with `dimensionalMismatch` and produce no partial output. -/
theorem c8_dimensional_mismatch (c : Codec) (buf : List ℕ) (fcs : List ℚ)
    (_hdim : 1 ≤ c.Dim) (hm : fcs.length % c.Dim ≠ 0) :
    c.EncodeFlatCoords buf fcs = .error .dimensionalMismatch ∧
    c.DecodeFlatCoords fcs buf = some (.error .dimensionalMismatch) := by
  constructor
  · unfold Codec.EncodeFlatCoords
    rw [if_pos hm]
  · unfold Codec.DecodeFlatCoords
    rw [if_pos hm]

theorem c8_dimensional_mismatch_witness :
    defaultCodec.EncodeFlatCoords [] [1] = .error .dimensionalMismatch ∧
    defaultCodec.DecodeFlatCoords [1] [] = some (.error .dimensionalMismatch) :=
  c8_dimensional_mismatch defaultCodec [] [1] (by decide) (by decide)

/-! ## C6: equivalence of the two decode accumulator strategies -/

theorem decodeFlatLoop_mono (c : Codec) :
    ∀ (f : ℕ) (last : List ℤ) (buf : List ℕ) (r : Except PErr (List ℚ)),
      decodeFlatLoop c f last buf = some r →
      ∀ f1, f ≤ f1 → decodeFlatLoop c f1 last buf = some r := by
  intro f
  induction f with
  | zero =>
    intro last buf r h f1 _
    cases buf with
    | nil =>
      rw [decodeFlatLoop_nil_buf] at h
      rw [decodeFlatLoop_nil_buf]
      exact h
    | cons b bs => exact absurd h (by simp [decodeFlatLoop])
  | succ f ih =>
    intro last buf r h f1 hle
    cases buf with
    | nil =>
      rw [decodeFlatLoop_nil_buf] at h
      rw [decodeFlatLoop_nil_buf]
      exact h
    | cons b bs =>
      obtain ⟨f2, rfl⟩ : ∃ f2, f1 = f2 + 1 := ⟨f1 - 1, by omega⟩
      cases hg : flatGroup c last (b :: bs) with
      | error e =>
        rw [decodeFlatLoop_step_error c f last _ e (by simp) hg] at h
        rw [decodeFlatLoop_step_error c f2 last _ e (by simp) hg]
        exact h
      | ok p =>
        obtain ⟨last1, vals, buf1⟩ := p
        rw [decodeFlatLoop_step c f last last1 vals _ buf1 (by simp) hg] at h
        rw [decodeFlatLoop_step c f2 last last1 vals _ buf1 (by simp) hg]
        cases hr : decodeFlatLoop c f last1 buf1 with
        | none => rw [hr] at h; exact absurd h (by simp)
        | some r1 =>
          rw [hr] at h
          rw [ih last1 buf1 r1 hr f2 (by omega)]
          exact h

theorem zipWith_add_scaled_flat (s : ℚ) :
    ∀ ks last : List ℤ,
      List.zipWith (fun x y => x + y) (ks.map fun j : ℤ => (j : ℚ) / s)
          (last.map fun j : ℤ => (j : ℚ) / s)
        = (List.zipWith (fun l k => l + k) last ks).map fun z : ℤ => (z : ℚ) / s := by
  intro ks
  induction ks with
  | nil => intro last; cases last <;> simp
  | cons k ks ih =>
    intro last
    cases last with
    | nil => simp
    | cons l ls =>
      simp only [List.map_cons, List.zipWith_cons_cons]
      rw [ih ls]
      congr 1
      push_cast
      ring

theorem zipWith_add_replicate_zero :
    ∀ (ks : List ℤ) (n : ℕ), ks.length = n →
      List.zipWith (fun l k => l + k) (List.replicate n 0) ks = ks := by
  intro ks
  induction ks with
  | nil => intro n _; simp
  | cons k ks ih =>
    intro n hn
    cases n with
    | zero => simp at hn
    | succ m =>
      simp only [List.replicate_succ, List.zipWith_cons_cons, zero_add]
      rw [ih m (by simpa using hn)]

theorem decodeInts_nil_of_pos (d : ℕ) (hd : 1 ≤ d) :
    decodeInts d [] = .error .unterminatedSequence := by
  obtain ⟨e, rfl⟩ : ∃ e, d = e + 1 := ⟨d - 1, by omega⟩
  exact decodeInts_succ_error e [] .unterminatedSequence
    (decodeInt_of_decodeUint_error [] .unterminatedSequence rfl)

theorem flatLoop_simulates (c : Codec) :
    ∀ (fuel : ℕ) (last : List ℤ) (buf : List ℕ) (vs : List (List ℚ)),
      last.length = c.Dim →
      decodeCoordsLoop c fuel (last.map fun j : ℤ => (j : ℚ) / c.Scale) buf =
        some (.ok vs) →
      decodeFlatLoop c fuel last buf = some (.ok vs.flatten) := by
  intro fuel
  induction fuel with
  | zero =>
    intro last buf vs _ h
    cases buf with
    | nil =>
      rw [decodeCoordsLoop_nil_buf] at h
      simp only [Option.some.injEq, Except.ok.injEq] at h
      rw [decodeFlatLoop_nil_buf, ← h]
      rfl
    | cons b bs => exact absurd h (by simp [decodeCoordsLoop])
  | succ fuel ih =>
    intro last buf vs hlen h
    cases buf with
    | nil =>
      rw [decodeCoordsLoop_nil_buf] at h
      simp only [Option.some.injEq, Except.ok.injEq] at h
      rw [decodeFlatLoop_nil_buf, ← h]
      rfl
    | cons b bs =>
      cases hdc : c.DecodeCoord (b :: bs) with
      | error e =>
        rw [decodeCoordsLoop_step_error c fuel _ _ e (by simp) hdc] at h
        exact absurd h (by simp)
      | ok p =>
        obtain ⟨coord, buf1⟩ := p
        rw [decodeCoordsLoop_step c fuel _ coord _ buf1 (by simp) hdc] at h
        have hdc2 := hdc
        unfold Codec.DecodeCoord at hdc2
        rw [decodeCoordAux_eq] at hdc2
        cases hdi : decodeInts c.Dim (b :: bs) with
        | error e => rw [hdi] at hdc2; exact absurd hdc2 (by simp [Except.map])
        | ok q =>
          obtain ⟨ks, buf2⟩ := q
          rw [hdi] at hdc2
          simp only [Except.map, Except.ok.injEq, Prod.mk.injEq] at hdc2
          obtain ⟨hcoord, hbuf2⟩ := hdc2
          subst hbuf2
          have hks : ks.length = c.Dim := decodeInts_length _ _ ks buf2 hdi
          have hg : flatGroup c last (b :: bs) =
              .ok (List.zipWith (fun l k => l + k) last ks,
                (List.zipWith (fun l k => l + k) last ks).map
                  (fun z : ℤ => (z : ℚ) / c.Scale),
                buf2) := by
            rw [flatGroup_eq, hlen, hdi]
            rfl
          have hcoord1 : List.zipWith (fun x y => x + y) coord
              (last.map fun j : ℤ => (j : ℚ) / c.Scale) =
              (List.zipWith (fun l k => l + k) last ks).map
                fun z : ℤ => (z : ℚ) / c.Scale := by
            rw [← hcoord]
            exact zipWith_add_scaled_flat c.Scale ks last
          rw [hcoord1] at h
          cases hr : decodeCoordsLoop c fuel
              ((List.zipWith (fun l k => l + k) last ks).map
                fun z : ℤ => (z : ℚ) / c.Scale) buf2 with
          | none => rw [hr] at h; exact absurd h (by simp)
          | some r =>
            rw [hr] at h
            cases r with
            | error e => exact absurd h (by simp)
            | ok rest =>
              simp only [Option.some.injEq, Except.ok.injEq] at h
              have hflat := ih (List.zipWith (fun l k => l + k) last ks) buf2 rest
                (by rw [List.length_zipWith, hlen, hks]; exact min_self _) hr
              rw [decodeFlatLoop_step c fuel last _ _ _ buf2 (by simp) hg]
              rw [hflat]
              rw [← h]
              rfl

/-- C6: whenever `DecodeCoords` succeeds on a buffer, `DecodeFlatCoords` with
an empty destination succeeds on the same buffer with the same remainder and
the flattened list of exactly the same coordinate values: the real-valued
running-sum accumulator and the integer accumulator-then-divide strategy are
numerically equivalent (real arithmetic is modelled exactly, by rationals). -/
theorem c6_decode_equivalence (c : Codec) (buf : List ℕ) (coords : List (List ℚ))
    (rem : List ℕ) (_hs : 0 < c.Scale)
    (h : c.DecodeCoords buf = some (.ok (coords, rem))) :
    c.DecodeFlatCoords [] buf = some (.ok (coords.flatten, rem)) := by
  cases hdc : c.DecodeCoord buf with
  | error e =>
    unfold Codec.DecodeCoords at h
    rw [hdc] at h
    exact absurd h (by simp)
  | ok p =>
    obtain ⟨coord, buf1⟩ := p
    rw [decodeCoords_of_first c buf buf1 coord hdc] at h
    cases hr : decodeCoordsLoop c buf1.length coord buf1 with
    | none => rw [hr] at h; exact absurd h (by simp)
    | some r =>
      rw [hr] at h
      cases r with
      | error e => exact absurd h (by simp)
      | ok rest =>
        simp only [Option.some.injEq, Except.ok.injEq, Prod.mk.injEq] at h
        obtain ⟨hcoords, hrem⟩ := h
        subst hcoords
        subst hrem
        have hdc2 := hdc
        unfold Codec.DecodeCoord at hdc2
        rw [decodeCoordAux_eq] at hdc2
        cases hdi : decodeInts c.Dim buf with
        | error e => rw [hdi] at hdc2; exact absurd hdc2 (by simp [Except.map])
        | ok q =>
          obtain ⟨ks, buf2⟩ := q
          rw [hdi] at hdc2
          simp only [Except.map, Except.ok.injEq, Prod.mk.injEq] at hdc2
          obtain ⟨hcoord, hbuf2⟩ := hdc2
          subst hbuf2
          have hks : ks.length = c.Dim := decodeInts_length _ _ ks buf2 hdi
          cases buf with
          | nil =>
            have hdim0 : c.Dim = 0 := by
              by_contra hne
              rw [decodeInts_nil_of_pos c.Dim (by omega)] at hdi
              exact absurd hdi (by simp)
            have hks0 : ks = [] := List.length_eq_zero.mp (by omega)
            subst hks0
            have hcoord0 : coord = [] := by rw [← hcoord]; rfl
            have hbuf10 : buf2 = [] := by
              simp only [decodeInts, hdim0] at hdi
              simp only [Except.ok.injEq, Prod.mk.injEq] at hdi
              exact hdi.2.symm ▸ rfl
            subst hcoord0
            subst hbuf10
            rw [decodeCoordsLoop_nil_buf] at hr
            simp only [Option.some.injEq, Except.ok.injEq] at hr
            subst hr
            unfold Codec.DecodeFlatCoords
            rw [if_neg (by simp)]
            rw [decodeFlatLoop_nil_buf]
            rfl
          | cons b bs =>
            have hdim : 1 ≤ c.Dim := by
              by_contra hne
              have hd0 : c.Dim = 0 := by omega
              have hks0 : ks = [] := List.length_eq_zero.mp (by omega)
              subst hks0
              have hcoord0 : coord = [] := by rw [← hcoord]; rfl
              have hbuf10 : buf2 = b :: bs := by
                simp only [decodeInts, hd0] at hdi
                simp only [Except.ok.injEq, Prod.mk.injEq] at hdi
                exact hdi.2.symm
              subst hcoord0
              rw [hbuf10] at hr
              rw [decodeCoordsLoop_dim_zero c hd0 _ _ b bs] at hr
              exact absurd hr (by simp)
            have hcons : buf2.length < (b :: bs).length :=
              (decodeInts_consume c.Dim _ ks buf2 hdi).2 hdim
            have hg : flatGroup c (List.replicate c.Dim 0) (b :: bs) =
                .ok (ks, ks.map (fun z : ℤ => (z : ℚ) / c.Scale), buf2) := by
              rw [flatGroup_eq]
              rw [List.length_replicate, hdi]
              simp only [Except.map]
              rw [zipWith_add_replicate_zero ks c.Dim hks]
            have hsim : decodeFlatLoop c buf2.length ks buf2 =
                some (.ok rest.flatten) := by
              apply flatLoop_simulates c buf2.length ks buf2 rest hks
              rw [← hcoord] at hr
              exact hr
            have hmono := decodeFlatLoop_mono c buf2.length ks buf2
              (.ok rest.flatten) hsim bs.length (by
                simp only [List.length_cons] at hcons
                omega)
            unfold Codec.DecodeFlatCoords
            rw [if_neg (by simp)]
            rw [show (b :: bs).length = bs.length + 1 from rfl]
            rw [decodeFlatLoop_step c bs.length _ ks
              (ks.map fun z : ℤ => (z : ℚ) / c.Scale) _ buf2 (by simp) hg]
            rw [hmono]
            rw [show (coord :: rest).flatten = coord ++ rest.flatten from rfl]
            rw [← hcoord]
            rfl

theorem c6_decode_equivalence_witness :
    defaultCodec.DecodeFlatCoords [] [63, 63] = some (.ok ([0, 0], [])) := by
  have h : defaultCodec.DecodeCoords [63, 63] = some (.ok ([[0, 0]], [])) := by
    norm_num [Codec.DecodeCoords, Codec.DecodeCoord, decodeCoordAux, DecodeInt,
      DecodeUint, decodeUintLoop, decodeCoordsLoop, defaultCodec]
  have := c6_decode_equivalence defaultCodec [63, 63] [[0, 0]] [] (by decide) h
  simpa using this

theorem c1_coords_roundtrip_witness :
    defaultCodec.EncodeCoords [] [[0, 0]] = some (encBytes defaultCodec [[0, 0]]) ∧
    defaultCodec.DecodeCoords (encBytes defaultCodec [[0, 0]]) =
      some (.ok (roundTrip defaultCodec [[0, 0]], [])) ∧
    (roundTrip defaultCodec [[0, 0]]).length = ([[0, 0]] : List (List ℚ)).length ∧
    (∀ coord ∈ roundTrip defaultCodec [[0, 0]], coord.length = defaultCodec.Dim) ∧
    List.Forall₂ (List.Forall₂ fun y x => |y - x| ≤ 1 / (2 * defaultCodec.Scale))
      (roundTrip defaultCodec [[0, 0]]) [[0, 0]] := by
  refine c1_coords_roundtrip defaultCodec [[0, 0]] (by simp) (by decide) (by decide)
    ?_ ?_
  · intro coord hc
    rw [List.mem_singleton] at hc
    subst hc
    simp [defaultCodec]
  · intro coord hc x hx
    rw [List.mem_singleton] at hc
    subst hc
    have hx0 : x = 0 := by
      simp only [List.mem_cons, List.not_mem_nil, or_false] at hx
      rcases hx with rfl | rfl <;> rfl
    subst hx0
    rw [round_eq_floor]
    norm_num [defaultCodec]

/-! ## C3: the canonical test vector -/

/-- C3 (amended): with the default codec, `EncodeCoords` applied to the
canonical three-point sequence `[[38.5, -120.2], [40.7, -120.95],
[43.252, -126.453]]` produces byte for byte the published example string
`"_p~iF~ps|U_ulLnnqC_mqNvxq\x60@"`. -/
theorem c3_canonical_vector :
    defaultCodec.EncodeCoords []
        [[(38.5 : ℚ), -120.2], [40.7, -120.95], [43.252, -126.453]] =
      some [95, 112, 126, 105, 70, 126, 112, 115, 124, 85, 95, 117, 108, 76, 110,
        110, 113, 67, 95, 109, 113, 78, 118, 120, 113, 96, 64] := by
  have h1 : round ((100000 : ℚ) * 38.5) = 3850000 := by rw [round_eq_floor]; norm_num
  have h2 : round ((100000 : ℚ) * -120.2) = -12020000 := by rw [round_eq_floor]; norm_num
  have h3 : round ((100000 : ℚ) * 40.7) = 4070000 := by rw [round_eq_floor]; norm_num
  have h4 : round ((100000 : ℚ) * -120.95) = -12095000 := by rw [round_eq_floor]; norm_num
  have h5 : round ((100000 : ℚ) * 43.252) = 4325200 := by rw [round_eq_floor]; norm_num
  have h6 : round ((100000 : ℚ) * -126.453) = -12645300 := by rw [round_eq_floor]; norm_num
  simp only [Codec.EncodeCoords, encodeCoordsLoop, encodeCoordDelta, defaultCodec,
    List.replicate, h1, h2, h3, h4, h5, h6]
  decide

/-- C3 counterexample: the two-point sequence `[[38.5, -120.2],
[40.7, -120.95]]` encodes to the 18-byte prefix `"_p~iF~ps|U_ulLnnqC"` only;
the published 27-byte string is the encoding of the canonical three-point
sequence, so the claim's two-point equality is false. -/
theorem c3_two_point_counterexample :
    defaultCodec.EncodeCoords [] [[(38.5 : ℚ), -120.2], [40.7, -120.95]] =
      some [95, 112, 126, 105, 70, 126, 112, 115, 124, 85, 95, 117, 108, 76, 110,
        110, 113, 67] ∧
    ([95, 112, 126, 105, 70, 126, 112, 115, 124, 85, 95, 117, 108, 76, 110,
        110, 113, 67] : List ℕ) ≠
      [95, 112, 126, 105, 70, 126, 112, 115, 124, 85, 95, 117, 108, 76, 110,
        110, 113, 67, 95, 109, 113, 78, 118, 120, 113, 96, 64] := by
  constructor
  · have h1 : round ((100000 : ℚ) * 38.5) = 3850000 := by rw [round_eq_floor]; norm_num
    have h2 : round ((100000 : ℚ) * -120.2) = -12020000 := by
      rw [round_eq_floor]; norm_num
    have h3 : round ((100000 : ℚ) * 40.7) = 4070000 := by rw [round_eq_floor]; norm_num
    have h4 : round ((100000 : ℚ) * -120.95) = -12095000 := by
      rw [round_eq_floor]; norm_num
    simp only [Codec.EncodeCoords, encodeCoordsLoop, encodeCoordDelta, defaultCodec,
      List.replicate, h1, h2, h3, h4]
    decide
  · decide

end Polyline
